import Mathlib

/-
Verification of the publish pipeline in make-repo.py.

The filesystem is modelled as an association list from paths (component
lists) to entries (regular file with content, directory, or symlink with a
relative target).  Shell / os operations used by the script are embedded as
pure state transformers that also record the mutating operations they
perform and the messages they print.  `os.path.exists` is modelled with
one step of symlink resolution, which is enough for the link shapes the
script creates.
-/

namespace MakeRepo

abbrev Path := List String

inductive FsEntry where
  | file (content : String)
  | dir
  | symlink (target : Path)
deriving DecidableEq, Repr

abbrev FS := List (Path × FsEntry)

def lookupFS (fs : FS) (p : Path) : Option FsEntry :=
  match fs.find? (fun kv => kv.1 = p) with
  | some kv => some kv.2
  | none => none

def removeFS (fs : FS) (p : Path) : FS :=
  fs.filter (fun kv => ¬(kv.1 = p))

def insertFS (fs : FS) (p : Path) (e : FsEntry) : FS :=
  (p, e) :: removeFS fs p

/-- Normalize a path by resolving `..` components. -/
def normPath (p : Path) : Path :=
  p.foldl (fun acc c => if c = ".." then acc.dropLast else acc ++ [c]) []

/-- Model of `os.path.dirname` on component lists. -/
def dirname (p : Path) : Path := p.dropLast

/-- Model of `os.path.basename` on component lists. -/
def lastName (p : Path) : String := p.getLast?.getD ""

def renderPath (p : Path) : String := String.intercalate "/" p

/-- One step of symlink resolution: a symlink is chased once, relative to
its directory. -/
def resolve1 (fs : FS) (p : Path) : Option FsEntry :=
  match lookupFS fs p with
  | some (.symlink t) => lookupFS fs (normPath (dirname p ++ t))
  | e => e

/-- Model of `os.path.exists` (follows the link at the final component). -/
def pathExists (fs : FS) (p : Path) : Bool :=
  (resolve1 fs p).isSome

/-- Model of `os.path.islink`. -/
def islink (fs : FS) (p : Path) : Bool :=
  match lookupFS fs p with
  | some (.symlink _) => true
  | _ => false

/-- Model of `os.readlink`. -/
def readlink (fs : FS) (p : Path) : Option Path :=
  match lookupFS fs p with
  | some (.symlink t) => some t
  | _ => none

def commonLen : Path → Path → Nat
  | a :: as, b :: bs => if a = b then 1 + commonLen as bs else 0
  | _, _ => 0

/-- Model of `os.path.relpath p start` on component lists. -/
def relpath (p start : Path) : Path :=
  List.replicate (start.length - commonLen p start) ".." ++ p.drop (commonLen p start)

/-- The mutating filesystem operations the script performs. -/
inductive FsOp where
  | unlink (p : Path)
  | lnS (target : Path) (link : Path)
  | mkdir (p : Path)
  | cp (src : Path) (dstdir : Path)
  | writeFile (p : Path) (content : String)
deriving DecidableEq, Repr

/-- Result of running a script step: final filesystem, trace of mutating
operations, printed messages, and whether the step succeeded (`ok = false`
models `fail()` / a fatal error, which aborts the process). -/
structure FsResult where
  fs : FS
  ops : List FsOp
  out : List String
  ok : Bool
deriving DecidableEq, Repr

/-- Drop a literal from the front of a character list; `none` if it does not
start with that literal. -/
def dropLit : List Char → List Char → Option (List Char)
  | [], l => some l
  | _ :: _, [] => none
  | c :: cs, d :: ds => if c = d then dropLit cs ds else none

def strStarts (pre s : String) : Bool :=
  (dropLit pre.toList s.toList).isSome

def strEnds (suf s : String) : Bool :=
  (dropLit suf.toList.reverse s.toList.reverse).isSome

/-- Model of `_make_redirect` from make-repo.py. -/
def make_redirect (root old new : String) : String :=
  "redirect permanent " ++ root ++ "/" ++ old ++ " " ++ root ++ "/" ++ new ++ "\n"

/-- Model of `_add_relative_link(topdir, srcname, linkname)` from make-repo.py:
create a symlink using relative path resolution, failing when the source
does not exist, doing nothing when a correct link is already in place, and
replacing whatever else occupies the link path. -/
def add_relative_link (fs : FS) (topdir srcname linkname : Path) : FsResult :=
  let srcpath := topdir ++ srcname
  let linkpath := topdir ++ linkname
  if pathExists fs srcpath then
    let srcrelpath := relpath srcname (dirname linkname)
    if pathExists fs linkpath then
      if islink fs linkpath = true ∧ readlink fs linkpath = some srcrelpath then
        ⟨fs, [],
         ["link path=" ++ renderPath linkpath ++ " already points to src=" ++
          renderPath srcrelpath ++ ", nothing to do"], true⟩
      else
        ⟨insertFS (removeFS fs linkpath) linkpath (.symlink srcrelpath),
         [.unlink linkpath, .lnS srcrelpath linkpath], [], true⟩
    else
      if lookupFS fs linkpath = none then
        ⟨insertFS fs linkpath (.symlink srcrelpath),
         [.lnS srcrelpath linkpath], [], true⟩
      else
        ⟨fs, [], ["ln: failed to create symbolic link"], false⟩
  else
    ⟨fs, [],
     ["Nonexistent link src=" ++ renderPath (topdir ++ srcname) ++
      " for target=" ++ renderPath (topdir ++ linkname)], false⟩

/-- fnmatch for the fixed pattern `virtio-win*.x86_64` (where `*` cannot
produce an overlap because no name shorter than the two literals can
satisfy both ends). -/
def globMatchName (name : String) : Bool :=
  strStarts "virtio-win" name && strEnds ".x86_64" name

/-- Is `p` a direct child of `dir`?  Returns its final component. -/
def childName (dir p : Path) : Option String :=
  if p.length = dir.length + 1 ∧ p.take dir.length = dir then p.getLast? else none

/-- The list `glob.glob(rpm_buildroot + "/virtio-win*.x86_64")`, in
directory-listing order. -/
def globExtract (fs : FS) (buildroot : Path) : List Path :=
  fs.filterMap (fun kv =>
    match childName buildroot kv.1 with
    | some n => if globMatchName n then some kv.1 else none
    | none => none)

/-- Model of `_glob(rpm_buildroot + "/virtio-win*.x86_64")[0]`: `_glob` calls
`fail` only when the match list is empty, and `_populate_local_tree`
takes element `[0]` of whatever it returns. -/
def findExtractDir (fs : FS) (buildroot : Path) : Option Path :=
  match globExtract fs buildroot with
  | [] => none
  | p :: _ => some p

/-- A character matched by the regex class `[\\d\\.]`. -/
def isVerChar (c : Char) : Bool := c.isDigit || c = '.'

/-- Matcher for the tail of `[\\d\\.]+-\\d+` after its first version char:
consume version chars until a `-`, which must be followed by a digit.
(The character class cannot contain `-`, so the first non-version char
must be the literal `-`; no other backtracking split can succeed.) -/
def relAfterOne : List Char → Bool
  | [] => false
  | c :: rest =>
    if c = '-' then
      match rest with
      | d :: _ => d.isDigit
      | [] => false
    else isVerChar c && relAfterOne rest

/-- Model of `re.match(r"virtio-win-[\\d\\.]+", s)`: an UNANCHORED prefix match. -/
def versionMatchL (l : List Char) : Bool :=
  match dropLit "virtio-win-".toList l with
  | some (c :: _) => isVerChar c
  | _ => false

/-- Model of `re.match(r"virtio-win-[\\d\\.]+-\\d+", s)`: an UNANCHORED prefix match. -/
def releaseMatchL (l : List Char) : Bool :=
  match dropLit "virtio-win-".toList l with
  | some (c :: rest) => isVerChar c && relAfterOne rest
  | _ => false

/-- Model of python `s.rsplit(sep, 1)[0]` on character lists. -/
def beforeLastSep (sep : Char) (l : List Char) : List Char :=
  match l.reverse.dropWhile (fun c => ¬(c = sep)) with
  | [] => l
  | _ :: rest => rest.reverse

/-- The version derivation of `_populate_local_tree`:
`virtio_release_str = basename.rsplit(".", 1)[0]`,
`virtio_version_str = virtio_release_str.rsplit("-", 1)[0]`, followed by
the two `assert re.match(...)` checks; a failed assertion aborts (`none`). -/
def extractVersionsL (bname : List Char) : Option (List Char × List Char) :=
  if versionMatchL (beforeLastSep '-' (beforeLastSep '.' bname)) &&
     releaseMatchL (beforeLastSep '.' bname) then
    some (beforeLastSep '-' (beforeLastSep '.' bname), beforeLastSep '.' bname)
  else
    none

/-- String-level wrapper: `(virtio_version_str, virtio_release_str)`. -/
def extract_version_strs (bname : String) : Option (String × String) :=
  match extractVersionsL bname.toList with
  | some (v, r) => some (String.mk v, String.mk r)
  | none => none

inductive RsyncPhase where
  | content
  | metadata
deriving DecidableEq, Repr

/-- One rsync invocation issued by `_run_rsync`, with the filter options
string exactly as the script builds it. -/
structure RsyncCall where
  phase : RsyncPhase
  opts : String
  dry : Bool
  delete : Bool
  src : String
  dst : String
deriving DecidableEq, Repr

/-- Model of `_run_rsync(reverse, dry)`: first the content sync with
`--exclude repodata` (RPMs in place before yum repodata, so users never
see an inconsistent repo), then the metadata sync restricted to
`repodata/*` with `--delete`. -/
def run_rsync (reverse dry : Bool) (loc rem : String) : List RsyncCall :=
  [⟨.content, "--exclude repodata", dry, false,
    if reverse then rem else loc, if reverse then loc else rem⟩,
   ⟨.metadata, "--include \"*/\" --include \"repodata/*\" --exclude \"*\" --delete", dry, true,
    if reverse then rem else loc, if reverse then loc else rem⟩]

/-- First-match semantics of the metadata-phase filter list
`--include "*/" --include "repodata/*" --exclude "*"`: every directory is
included (for traversal), a non-directory only when its parent directory
is named `repodata`, everything else is excluded. -/
def metadataFilterIncludes (p : List String) (isDir : Bool) : Bool :=
  if isDir then true
  else
    match p.reverse with
    | _ :: parent :: _ => parent = "repodata"
    | _ => false

/-- Model of `_push_repos(reverse)`: a dry run of both phases, then the
`yes_or_no` confirmation; `answer = false` means `sys.exit(1)` before any
non-dry rsync.  Returns the rsync calls issued and the forced exit code. -/
def push_repos (reverse answer : Bool) (loc rem : String) :
    List RsyncCall × Option Nat :=
  if answer then
    (run_rsync reverse true loc rem ++ run_rsync reverse false loc rem, none)
  else
    (run_rsync reverse true loc rem, some 1)

def HTTP_DIRECT_DIR : String := "/groups/virt/virtio-win/direct-downloads"

/-- Model of `shellcomm("cp %s %s" % (src, dstdir))`: plain `cp` dereferences a
symlink source, creating a regular file named after the source basename
in the destination directory; it fails when the source is not readable as
a file. -/
def cpInto (fs : FS) (src dstdir : Path) : Option FS :=
  match resolve1 fs src with
  | some (.file c) => some (insertFS fs (dstdir ++ [lastName src]) (.file c))
  | _ => none

/-- The `for versionfile, symlink in paths` loop of `add_virtiowin_media`:
copy both files of each pair into the release directory and accumulate
one redirect line per pair. -/
def copyMediaPairs (fs : FS) (vd : Path) (root : String) :
    List (Path × Path) → Option (FS × List FsOp × List String)
  | [] => some (fs, [], [])
  | (vf, sl) :: rest =>
    match cpInto fs vf vd with
    | none => none
    | some fs1 =>
      match cpInto fs1 sl vd with
      | none => none
      | some fs2 =>
        match copyMediaPairs fs2 vd root rest with
        | none => none
        | some (fs3, ops, lines) =>
          some (fs3, .cp vf vd :: .cp sl vd :: ops,
                make_redirect root (lastName sl) (lastName vf) :: lines)

/-- Model of `LocalRepo.add_virtiowin_media`: fail hard if the release directory
already exists, else create it, copy each (versioned file, symlink) pair
and write the accumulated redirect lines as `.htaccess`. -/
def add_virtiowin_media (fs : FS) (directDir basedir : Path)
    (pairs : List (Path × Path)) : FsResult :=
  if pathExists fs (directDir ++ basedir) then
    ⟨fs, [],
     ["dir=" ++ renderPath (directDir ++ basedir) ++
      " already exists? Make sure we aren't overwriting anything."], false⟩
  else
    match lookupFS fs (directDir ++ basedir) with
    | some _ => ⟨fs, [], ["mkdir: cannot create directory"], false⟩
    | none =>
      match copyMediaPairs (insertFS fs (directDir ++ basedir) .dir)
          (directDir ++ basedir) (HTTP_DIRECT_DIR ++ "/" ++ renderPath basedir)
          pairs with
      | none =>
        ⟨insertFS fs (directDir ++ basedir) .dir, [.mkdir (directDir ++ basedir)],
         ["cp: cannot stat source"], false⟩
      | some (fs1, ops, lines) =>
        ⟨insertFS fs1 ((directDir ++ basedir) ++ [".htaccess"])
           (.file (String.join lines)),
         .mkdir (directDir ++ basedir) :: ops ++
           [.writeFile ((directDir ++ basedir) ++ [".htaccess"]) (String.join lines)],
         [], true⟩

/-- The `for path in paths` copy loop of `add_qemuga`. -/
def copyAll (fs : FS) (dstdir : Path) : List Path → Option (FS × List FsOp)
  | [] => some (fs, [])
  | p :: rest =>
    match cpInto fs p dstdir with
    | none => none
    | some fs1 =>
      match copyAll fs1 dstdir rest with
      | none => none
      | some (fs2, ops) => some (fs2, .cp p dstdir :: ops)

/-- Model of `LocalRepo.add_qemuga`: if the qemu-ga release directory already
exists, print a notice and return successfully without touching anything;
otherwise create it and copy all given files into it. -/
def add_qemuga (fs : FS) (directDir qemugaBasedir : Path) (paths : List Path) :
    FsResult :=
  if pathExists fs (directDir ++ qemugaBasedir) then
    ⟨fs, [],
     ["qemuga has already been uploaded, skipping: " ++
      lastName (directDir ++ qemugaBasedir)], true⟩
  else
    match lookupFS fs (directDir ++ qemugaBasedir) with
    | some _ => ⟨fs, [], ["mkdir: cannot create directory"], false⟩
    | none =>
      match copyAll (insertFS fs (directDir ++ qemugaBasedir) .dir)
          (directDir ++ qemugaBasedir) paths with
      | none =>
        ⟨insertFS fs (directDir ++ qemugaBasedir) .dir,
         [.mkdir (directDir ++ qemugaBasedir)], ["cp: cannot stat source"], false⟩
      | some (fs1, ops) =>
        ⟨fs1, .mkdir (directDir ++ qemugaBasedir) :: ops, [], true⟩

/-- Model of `glob.glob(os.path.join(LOCAL_REPO_DIR, "rpms", "*.rpm"))`, reduced to
the list of matching basenames (a real directory listing has no duplicate
names, hence the dedup). -/
def rpmPoolNames (fs : FS) (repoDir : Path) : List String :=
  (fs.filterMap (fun kv =>
    match childName (repoDir ++ ["rpms"]) kv.1 with
    | some n => if strEnds ".rpm" n then some n else none
    | none => none)).dedup

/-- The `for fullpath in glob(...)` loop: one `_add_relative_link` call
per matched pool file, aborting on the first failure. -/
def linkLoop (fs : FS) (repoDir : Path) : List String → FsResult
  | [] => ⟨fs, [], [], true⟩
  | n :: rest =>
    let r1 := add_relative_link fs repoDir ["rpms", n] ["latest", n]
    if r1.ok then
      let r2 := linkLoop r1.fs repoDir rest
      ⟨r2.fs, r1.ops ++ r2.ops, r1.out ++ r2.out, r2.ok⟩
    else
      ⟨r1.fs, r1.ops, r1.out, false⟩

/-- The latest-symlink generation of `_generate_repos`: the alias list is
derived from the CURRENT pool contents, not from the release being
published. -/
def generate_latest_links (fs : FS) (repoDir : Path) : FsResult :=
  linkLoop fs repoDir (rpmPoolNames fs repoDir)

/-! Theorems -/

theorem lookupFS_insert_self (fs : FS) (p : Path) (e : FsEntry) :
    lookupFS (insertFS fs p e) p = some e := by
  simp [lookupFS, insertFS, List.find?]

theorem find?_filter_ne (fs : FS) (p q : Path) (h : q ≠ p) :
    (removeFS fs p).find? (fun kv => kv.1 = q) = fs.find? (fun kv => kv.1 = q) := by
  induction fs with
  | nil => rfl
  | cons kv rest ih =>
    by_cases hkv : kv.1 = p
    · have hq : (decide (kv.1 = q)) = false := by
        simp [hkv]
        exact fun hqq => h hqq.symm
      rw [show removeFS (kv :: rest) p = removeFS rest p by
            simp [removeFS, List.filter, hkv]]
      rw [ih]
      rw [show (kv :: rest).find? (fun kv => kv.1 = q) =
            rest.find? (fun kv => kv.1 = q) by
            simp only [List.find?, hq]]
    · rw [show removeFS (kv :: rest) p = kv :: removeFS rest p by
            simp [removeFS, List.filter, hkv]]
      by_cases hq : kv.1 = q
      · have hq' : (decide (kv.1 = q)) = true := by simp [hq]
        simp only [List.find?, hq']
      · have hq' : (decide (kv.1 = q)) = false := by simp [hq]
        simp only [List.find?, hq', ih]

theorem lookupFS_insert_ne (fs : FS) (p q : Path) (e : FsEntry) (h : q ≠ p) :
    lookupFS (insertFS fs p e) q = lookupFS fs q := by
  have h2 : (decide (p = q)) = false := by
    simp
    exact fun hpq => h hpq.symm
  simp [lookupFS, insertFS, List.find?, h2]
  rw [find?_filter_ne fs p q h]

theorem lookupFS_remove_ne (fs : FS) (p q : Path) (h : q ≠ p) :
    lookupFS (removeFS fs p) q = lookupFS fs q := by
  simp [lookupFS]
  rw [find?_filter_ne fs p q h]

theorem dropLit_append (xs ys : List Char) : dropLit xs (xs ++ ys) = some ys := by
  induction xs with
  | nil => rfl
  | cons c cs ih => simp [dropLit, ih]

theorem foldl_norm_no_dd (xs : Path) : ∀ acc : Path, (".." : String) ∉ xs →
    xs.foldl (fun acc c => if c = ".." then acc.dropLast else acc ++ [c]) acc = acc ++ xs := by
  induction xs with
  | nil => intro acc _; simp
  | cons c cs ih =>
    intro acc h
    have hc : c ≠ ".." := by
      intro hc; exact h (hc ▸ List.mem_cons_self c cs)
    simp only [List.foldl_cons, if_neg hc]
    rw [ih (acc ++ [c]) (fun hm => h (List.mem_cons_of_mem c hm))]
    simp

theorem foldl_norm_replicate (k : Nat) : ∀ acc : Path, k ≤ acc.length →
    (List.replicate k (".." : String)).foldl
      (fun acc c => if c = ".." then acc.dropLast else acc ++ [c]) acc =
    acc.take (acc.length - k) := by
  induction k with
  | zero => intro acc _; simp
  | succ k ih =>
    intro acc h
    simp only [List.replicate_succ, List.foldl_cons, if_true]
    rw [ih acc.dropLast (by rw [List.length_dropLast]; omega)]
    rw [List.length_dropLast, List.dropLast_eq_take, List.take_take]
    congr 1
    omega

theorem commonLen_le_right : ∀ a b : Path, commonLen a b ≤ b.length := by
  intro a
  induction a with
  | nil => intro b; cases b <;> simp [commonLen]
  | cons x xs ih =>
    intro b
    cases b with
    | nil => simp [commonLen]
    | cons y ys =>
      simp only [commonLen]
      by_cases hxy : x = y
      · simp [hxy, List.length_cons]
        have := ih ys
        omega
      · simp [hxy]

theorem take_commonLen : ∀ a b : Path, a.take (commonLen a b) = b.take (commonLen a b) := by
  intro a
  induction a with
  | nil => intro b; cases b <;> simp [commonLen]
  | cons x xs ih =>
    intro b
    cases b with
    | nil => simp [commonLen]
    | cons y ys =>
      simp only [commonLen]
      by_cases hxy : x = y
      · simp only [if_pos hxy]
        rw [show 1 + commonLen xs ys = commonLen xs ys + 1 by omega]
        simp [List.take_succ_cons, hxy, ih ys]
      · simp [hxy]

/-- Resolving, from inside directory `t ++ d`, the relative path that
`os.path.relpath` computed from `s` to `d`, lands back on `t ++ s`. -/
theorem normPath_relpath (t d s : Path)
    (ht : (".." : String) ∉ t) (hd : (".." : String) ∉ d) (hs : (".." : String) ∉ s) :
    normPath ((t ++ d) ++ relpath s d) = t ++ s := by
  unfold normPath relpath
  rw [show (t ++ d) ++ (List.replicate (d.length - commonLen s d) ".." ++
        s.drop (commonLen s d)) =
      (((t ++ d) ++ List.replicate (d.length - commonLen s d) "..") ++
        s.drop (commonLen s d)) by simp]
  rw [List.foldl_append, List.foldl_append]
  rw [foldl_norm_no_dd (t ++ d) []
      (by intro hm; rcases List.mem_append.mp hm with h | h; exact ht h; exact hd h)]
  simp only [List.nil_append]
  have hc := commonLen_le_right s d
  rw [foldl_norm_replicate (d.length - commonLen s d) (t ++ d)
      (by simp; omega)]
  rw [foldl_norm_no_dd _ _ (fun hm => hs (List.mem_of_mem_drop hm))]
  have hlen : (t ++ d).length - (d.length - commonLen s d) = t.length + commonLen s d := by
    simp
    omega
  rw [hlen, List.take_append_eq_append_take, List.take_of_length_le (by omega),
      show t.length + commonLen s d - t.length = commonLen s d by omega]
  rw [← take_commonLen s d, List.append_assoc, List.take_append_drop]

/-- A successful `_add_relative_link` leaves a symlink with the computed
relative target at the link path. -/
theorem add_relative_link_ok_lookup (fs : FS) (t s l : Path) (r : FsResult)
    (hr : add_relative_link fs t s l = r) (h : r.ok = true) :
    lookupFS r.fs (t ++ l) = some (.symlink (relpath s (dirname l))) := by
  simp only [add_relative_link] at hr
  split at hr
  · split at hr
    · split at hr
      · next hcond =>
        obtain ⟨hil, hrl⟩ := hcond
        rw [← hr]
        unfold islink at hil
        unfold readlink at hrl
        revert hil hrl
        cases hl : lookupFS fs (t ++ l) with
        | none => simp
        | some e =>
          cases e with
          | file c => simp
          | dir => simp
          | symlink u => simp only; intro _ hu; simp at hu; rw [hu]
      · rw [← hr]
        exact lookupFS_insert_self _ _ _
    · split at hr
      · rw [← hr]
        exact lookupFS_insert_self _ _ _
      · rw [← hr] at h; simp at h
  · rw [← hr] at h; simp at h

/-- Frame property: `_add_relative_link` touches no path other than the link path. -/
theorem add_relative_link_frame (fs : FS) (t s l : Path) (r : FsResult) (q : Path)
    (hr : add_relative_link fs t s l = r) (hq : q ≠ t ++ l) :
    lookupFS r.fs q = lookupFS fs q := by
  simp only [add_relative_link] at hr
  split at hr
  · split at hr
    · split at hr
      · rw [← hr]
      · rw [← hr]
        exact (lookupFS_insert_ne _ _ _ _ hq).trans (lookupFS_remove_ne _ _ _ hq)
    · split at hr
      · rw [← hr]
        exact lookupFS_insert_ne _ _ _ _ hq
      · rw [← hr]
  · rw [← hr]

/-- Existence of a path needs an entry at the path itself. -/
theorem pathExists_lookup (fs : FS) (p : Path) (h : pathExists fs p = true) :
    ∃ e, lookupFS fs p = some e := by
  unfold pathExists resolve1 at h
  cases hl : lookupFS fs p with
  | none => rw [hl] at h; simp at h
  | some e => exact ⟨e, rfl⟩

/-- C3: the alias-link operation is idempotent.  If a call to
`_add_relative_link` succeeded and the link target still exists, an
identical second call returns the very same filesystem, performs no
mutating operation, and only prints the "nothing to do" notice. -/
theorem add_relative_link_idempotent (fs : FS) (t s l : Path) (r : FsResult)
    (ht : (".." : String) ∉ t) (hs : (".." : String) ∉ s) (hl : (".." : String) ∉ l)
    (hlnil : l ≠ [])
    (hr : add_relative_link fs t s l = r) (hok : r.ok = true)
    (hex : pathExists r.fs (t ++ s) = true) :
    add_relative_link r.fs t s l =
      ⟨r.fs, [],
       ["link path=" ++ renderPath (t ++ l) ++ " already points to src=" ++
        renderPath (relpath s (dirname l)) ++ ", nothing to do"], true⟩ := by
  have hlook : lookupFS r.fs (t ++ l) = some (.symlink (relpath s (dirname l))) :=
    add_relative_link_ok_lookup fs t s l r hr hok
  have hdir : dirname (t ++ l) = t ++ dirname l := by
    cases l with
    | nil => exact absurd rfl hlnil
    | cons b l2 => exact List.dropLast_append_cons
  have hnorm : normPath (dirname (t ++ l) ++ relpath s (dirname l)) = t ++ s := by
    rw [hdir, List.append_assoc]
    rw [show t ++ (dirname l ++ relpath s (dirname l)) =
        (t ++ dirname l) ++ relpath s (dirname l) by simp]
    exact normPath_relpath t (dirname l) s ht
      (fun hm => hl ((List.dropLast_sublist l).subset hm)) hs
  obtain ⟨e, he⟩ := pathExists_lookup r.fs (t ++ s) hex
  have hexl : pathExists r.fs (t ++ l) = true := by
    unfold pathExists resolve1
    rw [hlook]
    show (lookupFS r.fs (normPath (dirname (t ++ l) ++ relpath s (dirname l)))).isSome = true
    rw [hnorm, he]
    rfl
  have hisl : islink r.fs (t ++ l) = true := by
    unfold islink; rw [hlook]
  have hrdl : readlink r.fs (t ++ l) = some (relpath s (dirname l)) := by
    unfold readlink; rw [hlook]
  simp only [add_relative_link]
  rw [if_pos hex, if_pos hexl, if_pos ⟨hisl, hrdl⟩]

/-- Witness for C3 at a concrete input. -/
theorem add_relative_link_idempotent_witness :
    add_relative_link
      (add_relative_link [(["top"], .dir), (["top", "data"], .file "x")]
        ["top"] ["data"] ["latest"]).fs
      ["top"] ["data"] ["latest"] =
      ⟨(add_relative_link [(["top"], .dir), (["top", "data"], .file "x")]
          ["top"] ["data"] ["latest"]).fs, [],
       ["link path=" ++ renderPath (["top"] ++ ["latest"]) ++
        " already points to src=" ++
        renderPath (relpath ["data"] (dirname ["latest"])) ++ ", nothing to do"], true⟩ :=
  add_relative_link_idempotent
    [(["top"], .dir), (["top", "data"], .file "x")]
    ["top"] ["data"] ["latest"] _
    (by decide) (by decide) (by decide) (by decide) rfl (by decide) (by decide)

/-- C10: when the link path is occupied by anything that is not a symlink
to the computed relative target (e.g. a plain regular file), a successful
`_add_relative_link` silently unlinks it and creates the symlink, with no
notice printed. -/
theorem add_relative_link_replaces (fs : FS) (t s l : Path) (e : FsEntry)
    (hsrc : pathExists fs (t ++ s) = true)
    (hlnk : pathExists fs (t ++ l) = true)
    (hent : lookupFS fs (t ++ l) = some e)
    (hne : e ≠ .symlink (relpath s (dirname l))) :
    add_relative_link fs t s l =
      ⟨insertFS (removeFS fs (t ++ l)) (t ++ l) (.symlink (relpath s (dirname l))),
       [.unlink (t ++ l), .lnS (relpath s (dirname l)) (t ++ l)], [], true⟩ := by
  have hcond : ¬(islink fs (t ++ l) = true ∧
      readlink fs (t ++ l) = some (relpath s (dirname l))) := by
    rintro ⟨_, hrd⟩
    unfold readlink at hrd
    rw [hent] at hrd
    cases e with
    | symlink u =>
      simp at hrd
      exact hne (by rw [hrd])
    | file c => simp at hrd
    | dir => simp at hrd
  simp only [add_relative_link]
  rw [if_pos hsrc, if_pos hlnk, if_neg hcond]

/-- Witness for C10: a regular file sitting at the link name is deleted and
replaced without any notice. -/
theorem add_relative_link_replaces_witness :
    add_relative_link
      [(["top"], .dir), (["top", "data"], .file "x"), (["top", "latest"], .file "old")]
      ["top"] ["data"] ["latest"] =
      ⟨insertFS (removeFS
          [(["top"], .dir), (["top", "data"], .file "x"), (["top", "latest"], .file "old")]
          ["top", "latest"]) ["top", "latest"]
          (.symlink (relpath ["data"] (dirname ["latest"]))),
       [.unlink ["top", "latest"],
        .lnS (relpath ["data"] (dirname ["latest"])) ["top", "latest"]], [], true⟩ :=
  add_relative_link_replaces
    [(["top"], .dir), (["top", "data"], .file "x"), (["top", "latest"], .file "old")]
    ["top"] ["data"] ["latest"] (.file "old")
    (by decide) (by decide) (by decide) (by decide)

/-- C1 counterexample: with two directories matching `virtio-win*.x86_64`
in the buildroot the code does not fail; it silently picks the first
match, so ambiguity IS resolved automatically. -/
theorem findExtractDir_ambiguous_counterexample :
    (globExtract
      [(["br"], .dir),
       (["br", "virtio-win-0.1.1-1.x86_64"], .dir),
       (["br", "virtio-win-0.1.2-1.x86_64"], .dir)] ["br"]).length = 2 ∧
    findExtractDir
      [(["br"], .dir),
       (["br", "virtio-win-0.1.1-1.x86_64"], .dir),
       (["br", "virtio-win-0.1.2-1.x86_64"], .dir)] ["br"] =
      some ["br", "virtio-win-0.1.1-1.x86_64"] := by
  constructor
  · rfl
  · rfl

/-- C1 amended: the extracted-tree search fails exactly when there are
zero matches; otherwise it returns the first match in listing order
(ambiguity is resolved automatically by `[0]`). -/
theorem findExtractDir_head (fs : FS) (buildroot : Path) :
    findExtractDir fs buildroot = (globExtract fs buildroot).head? ∧
    (findExtractDir fs buildroot = none ↔ globExtract fs buildroot = []) := by
  unfold findExtractDir
  cases globExtract fs buildroot with
  | nil => exact ⟨rfl, by simp⟩
  | cons p rest => exact ⟨rfl, by simp⟩

/-- C5 counterexample: the `re.match` checks are unanchored prefix
matches, so a basename whose version part contains non-digit/dot junk is
ACCEPTED, not rejected: `virtio-win-1.2-3x-4.x86_64` yields version part
`virtio-win-1.2-3x` despite the `x`. -/
theorem extractVersions_unanchored_counterexample :
    extract_version_strs "virtio-win-1.2-3x-4.x86_64" =
      some ("virtio-win-1.2-3x", "virtio-win-1.2-3x-4") := by
  decide

theorem dropWhile_append_of_all (sep : Char) (zs w : List Char)
    (h : ∀ c ∈ zs, ¬(c = sep)) :
    (zs ++ w).dropWhile (fun c => ¬(c = sep)) = w.dropWhile (fun c => ¬(c = sep)) := by
  induction zs with
  | nil => rfl
  | cons c cs ih =>
    have hc : c ≠ sep := h c (List.mem_cons_self c cs)
    simp only [List.cons_append, List.dropWhile_cons]
    rw [if_pos (by simpa using hc)]
    exact ih (fun d hd => h d (List.mem_cons_of_mem c hd))

theorem beforeLastSep_append (sep : Char) (xs ys : List Char) (h : sep ∉ ys) :
    beforeLastSep sep (xs ++ sep :: ys) = xs := by
  unfold beforeLastSep
  rw [show (xs ++ sep :: ys).reverse = ys.reverse ++ sep :: xs.reverse by simp]
  rw [dropWhile_append_of_all sep ys.reverse (sep :: xs.reverse)
      (fun c hc hcs => h (hcs ▸ List.mem_reverse.mp hc))]
  rw [show (sep :: xs.reverse).dropWhile (fun c => ¬(c = sep)) = sep :: xs.reverse by
        simp [List.dropWhile_cons]]
  simp

theorem relAfterOne_append (cs b : List Char)
    (hcs : ∀ c ∈ cs, isVerChar c = true)
    (d : Char) (bs : List Char) (hb : b = d :: bs) (hd : d.isDigit = true) :
    relAfterOne (cs ++ '-' :: b) = true := by
  induction cs with
  | nil =>
    subst hb
    simp only [List.nil_append]
    unfold relAfterOne
    rw [if_pos rfl]
    exact hd
  | cons c cs' ih =>
    have hvc : isVerChar c = true := hcs c (List.mem_cons_self c cs')
    have hcne : ¬(c = '-') := by
      intro he
      rw [he] at hvc
      exact absurd hvc (by decide)
    simp only [List.cons_append]
    unfold relAfterOne
    rw [if_neg hcne]
    rw [hvc, ih (fun e he => hcs e (List.mem_cons_of_mem c he))]
    rfl

/-- C5 amended: for a well-formed basename
`virtio-win-<digits/dots>-<digits>.<arch>` (arch containing no dot), the
release tag is the basename minus the last dot-suffix and the version is
the release tag minus the last hyphen-suffix, and the assertions accept.
(The validation itself is only an unanchored prefix check -- see the
counterexample -- and requires the literal prefix `virtio-win-`.) -/
theorem extractVersionsL_wellformed (v b a : List Char)
    (hv : v ≠ []) (hvc : ∀ c ∈ v, isVerChar c = true)
    (hb : b ≠ []) (hbc : ∀ c ∈ b, c.isDigit = true)
    (had : '.' ∉ a) :
    extractVersionsL ("virtio-win-".toList ++ v ++ '-' :: b ++ '.' :: a) =
      some ("virtio-win-".toList ++ v, "virtio-win-".toList ++ v ++ '-' :: b) := by
  have hbdot : '.' ∉ b := by
    intro hm
    have := hbc '.' hm
    exact absurd this (by decide)
  have hbdash : '-' ∉ b := by
    intro hm
    have := hbc '-' hm
    exact absurd this (by decide)
  have hrel : beforeLastSep '.' ("virtio-win-".toList ++ v ++ '-' :: b ++ '.' :: a) =
      "virtio-win-".toList ++ v ++ '-' :: b := by
    rw [show "virtio-win-".toList ++ v ++ '-' :: b ++ '.' :: a =
        ("virtio-win-".toList ++ v ++ '-' :: b) ++ '.' :: a by simp]
    exact beforeLastSep_append '.' _ a had
  have hver : beforeLastSep '-' ("virtio-win-".toList ++ v ++ '-' :: b) =
      "virtio-win-".toList ++ v := by
    rw [show "virtio-win-".toList ++ v ++ '-' :: b =
        ("virtio-win-".toList ++ v) ++ '-' :: b by simp]
    exact beforeLastSep_append '-' _ b hbdash
  obtain ⟨c, cs, hcv⟩ := List.exists_cons_of_ne_nil hv
  obtain ⟨d, bs, hdb⟩ := List.exists_cons_of_ne_nil hb
  have hvm : versionMatchL ("virtio-win-".toList ++ v) = true := by
    unfold versionMatchL
    rw [dropLit_append]
    rw [hcv]
    exact hvc c (hcv ▸ List.mem_cons_self c cs)
  have hrm : releaseMatchL ("virtio-win-".toList ++ v ++ '-' :: b) = true := by
    unfold releaseMatchL
    rw [show "virtio-win-".toList ++ v ++ '-' :: b =
        "virtio-win-".toList ++ (v ++ '-' :: b) by simp]
    rw [dropLit_append]
    rw [hcv]
    simp only [List.cons_append]
    have h1 : isVerChar c = true := hvc c (hcv ▸ List.mem_cons_self c cs)
    have h2 : relAfterOne (cs ++ '-' :: b) = true :=
      relAfterOne_append cs b
        (fun e he => hvc e (hcv ▸ List.mem_cons_of_mem c he))
        d bs hdb (hbc d (hdb ▸ List.mem_cons_self d bs))
    rw [h1, h2]
    rfl
  unfold extractVersionsL
  rw [hrel, hver, hvm, hrm]
  rfl

/-- Witness for C5 amended at `virtio-win-1.2-7.x86_64`. -/
theorem extractVersionsL_wellformed_witness :
    extractVersionsL ("virtio-win-".toList ++ ['1', '.', '2'] ++ '-' :: ['7'] ++
        '.' :: "x86_64".toList) =
      some ("virtio-win-".toList ++ ['1', '.', '2'],
            "virtio-win-".toList ++ ['1', '.', '2'] ++ '-' :: ['7']) :=
  extractVersionsL_wellformed ['1', '.', '2'] ['7'] "x86_64".toList
    (by decide) (by decide) (by decide) (by decide) (by decide)

/-- C6: in every run the content-phase command comes strictly before the
metadata-phase command, and the metadata filter admits a non-directory
path only when it sits directly inside a `repodata` directory. -/
theorem rsync_phase_order_and_filter :
    (∀ reverse dry loc rem, (run_rsync reverse dry loc rem).map RsyncCall.phase =
        [RsyncPhase.content, RsyncPhase.metadata]) ∧
    (∀ p : List String, metadataFilterIncludes p false = true →
        ∃ pre x, p = pre ++ ["repodata", x]) := by
  constructor
  · intro reverse dry loc rem
    rfl
  · intro p h
    unfold metadataFilterIncludes at h
    rw [if_neg (by simp)] at h
    cases hrev : p.reverse with
    | nil => rw [hrev] at h; simp at h
    | cons x rest =>
      cases rest with
      | nil => rw [hrev] at h; simp at h
      | cons y rest2 =>
        rw [hrev] at h
        simp at h
        refine ⟨rest2.reverse, x, ?_⟩
        have hp : p = (x :: y :: rest2).reverse := by
          rw [← hrev, List.reverse_reverse]
        rw [hp, h]
        simp

/-- Witness for C6 at a concrete metadata path. -/
theorem rsync_phase_order_and_filter_witness :
    ∃ pre x, (["latest", "repodata", "repomd.xml"] : List String) =
      pre ++ ["repodata", x] :=
  rsync_phase_order_and_filter.2 ["latest", "repodata", "repomd.xml"] (by decide)

/-- C7: declining the confirmation gate exits with status 1 having issued
only dry-run commands, and even on confirmation the dry run of both
phases strictly precedes the real (mutating) run. -/
theorem push_repos_confirmation_gate :
    ∀ reverse loc rem,
      (push_repos reverse false loc rem).2 = some 1 ∧
      ((push_repos reverse false loc rem).1.all (fun c => c.dry)) = true ∧
      ((push_repos reverse true loc rem).1.map (fun c => c.dry)) =
        [true, true, false, false] := by
  intro reverse loc rem
  exact ⟨rfl, rfl, rfl⟩

/-- C4: if the release directory named after the release tag already
exists, `add_virtiowin_media` fails immediately and performs no filesystem
mutation at all. -/
theorem add_virtiowin_media_already_published (fs : FS) (dd bd : Path)
    (pairs : List (Path × Path)) (h : pathExists fs (dd ++ bd) = true) :
    add_virtiowin_media fs dd bd pairs =
      ⟨fs, [],
       ["dir=" ++ renderPath (dd ++ bd) ++
        " already exists? Make sure we aren't overwriting anything."], false⟩ := by
  unfold add_virtiowin_media
  rw [if_pos h]

/-- Witness for C4: re-running the disk-image step on an existing release
directory writes nothing and fails. -/
theorem add_virtiowin_media_already_published_witness :
    add_virtiowin_media
      [(["direct"], .dir), (["direct", "archive-virtio"], .dir),
       (["direct", "archive-virtio", "virtio-win-0.1.1-1"], .dir)]
      ["direct"] ["archive-virtio", "virtio-win-0.1.1-1"] [] =
      ⟨[(["direct"], .dir), (["direct", "archive-virtio"], .dir),
        (["direct", "archive-virtio", "virtio-win-0.1.1-1"], .dir)], [],
       ["dir=" ++ renderPath (["direct"] ++ ["archive-virtio", "virtio-win-0.1.1-1"]) ++
        " already exists? Make sure we aren't overwriting anything."], false⟩ :=
  add_virtiowin_media_already_published
    [(["direct"], .dir), (["direct", "archive-virtio"], .dir),
     (["direct", "archive-virtio", "virtio-win-0.1.1-1"], .dir)]
    ["direct"] ["archive-virtio", "virtio-win-0.1.1-1"] [] (by decide)

/-- C2 counterexample: with one (versioned file, symlink) pair the copy
step puts BOTH names into the release directory as regular files (`cp`
dereferences the symlink), so a file with the unversioned alias name DOES
exist in the destination. -/
theorem add_virtiowin_media_alias_file_counterexample :
    (add_virtiowin_media
      [(["direct"], .dir), (["src"], .dir),
       (["src", "virtio-win-0.1.1.iso"], .file "ISO"),
       (["src", "virtio-win.iso"], .symlink ["virtio-win-0.1.1.iso"])]
      ["direct"] ["archive-virtio", "virtio-win-0.1.1"]
      [(["src", "virtio-win-0.1.1.iso"], ["src", "virtio-win.iso"])]).ok = true ∧
    lookupFS (add_virtiowin_media
      [(["direct"], .dir), (["src"], .dir),
       (["src", "virtio-win-0.1.1.iso"], .file "ISO"),
       (["src", "virtio-win.iso"], .symlink ["virtio-win-0.1.1.iso"])]
      ["direct"] ["archive-virtio", "virtio-win-0.1.1"]
      [(["src", "virtio-win-0.1.1.iso"], ["src", "virtio-win.iso"])]).fs
      ["direct", "archive-virtio", "virtio-win-0.1.1", "virtio-win.iso"] =
      some (.file "ISO") := by
  constructor
  · decide
  · decide

/-- The redirect lines accumulated by the media-copy loop: exactly one
line per pair, in order. -/
theorem copyMediaPairs_lines (vd : Path) (root : String) :
    ∀ (prs : List (Path × Path)) (fs fs' : FS) (ops : List FsOp) (lines : List String),
      copyMediaPairs fs vd root prs = some (fs', ops, lines) →
      lines = prs.map (fun pr => make_redirect root (lastName pr.2) (lastName pr.1)) := by
  intro prs
  induction prs with
  | nil =>
    intro fs fs' ops lines h
    simp [copyMediaPairs] at h
    rw [h.2.2]
    rfl
  | cons pr rest ih =>
    intro fs fs' ops lines h
    obtain ⟨vf, sl⟩ := pr
    unfold copyMediaPairs at h
    cases h1 : cpInto fs vf vd with
    | none => rw [h1] at h; simp at h
    | some fs1 =>
      rw [h1] at h
      dsimp only at h
      cases h2 : cpInto fs1 sl vd with
      | none => rw [h2] at h; simp at h
      | some fs2 =>
        rw [h2] at h
        dsimp only at h
        cases h3 : copyMediaPairs fs2 vd root rest with
        | none => rw [h3] at h; simp at h
        | some trip =>
          rw [h3] at h
          obtain ⟨fs3, ops0, l0⟩ := trip
          dsimp only at h
          simp at h
          obtain ⟨-, -, hlines⟩ := h
          rw [← hlines, List.map_cons]
          rw [ih fs2 fs3 ops0 l0 h3]

/-- The media-copy loop changes the filesystem only by installing regular
files named after the basenames of the copied pairs, inside the release
directory. -/
theorem copyMediaPairs_lookup (vd : Path) (root : String) :
    ∀ (prs : List (Path × Path)) (fs fs' : FS) (ops : List FsOp) (lines : List String),
      copyMediaPairs fs vd root prs = some (fs', ops, lines) →
      ∀ q : Path, lookupFS fs' q = lookupFS fs q ∨
        ((∃ c, lookupFS fs' q = some (.file c)) ∧
         ∃ pr ∈ prs, q = vd ++ [lastName pr.1] ∨ q = vd ++ [lastName pr.2]) := by
  intro prs
  induction prs with
  | nil =>
    intro fs fs' ops lines h q
    simp [copyMediaPairs] at h
    rw [← h.1]
    exact Or.inl rfl
  | cons pr rest ih =>
    intro fs fs' ops lines h q
    obtain ⟨vf, sl⟩ := pr
    unfold copyMediaPairs at h
    cases h1 : cpInto fs vf vd with
    | none => rw [h1] at h; simp at h
    | some fs1 =>
      rw [h1] at h
      dsimp only at h
      cases h2 : cpInto fs1 sl vd with
      | none => rw [h2] at h; simp at h
      | some fs2 =>
        rw [h2] at h
        dsimp only at h
        cases h3 : copyMediaPairs fs2 vd root rest with
        | none => rw [h3] at h; simp at h
        | some trip =>
          rw [h3] at h
          obtain ⟨fs3, ops0, l0⟩ := trip
          dsimp only at h
          simp at h
          obtain ⟨hfs, -, -⟩ := h
          -- unpack the two cpInto equations
          unfold cpInto at h1 h2
          rcases hr1 : resolve1 fs vf with - | e1 <;> rw [hr1] at h1
          · simp at h1
          cases e1 with
          | file c1 =>
            simp at h1
            rcases hr2 : resolve1 fs1 sl with - | e2 <;> rw [hr2] at h2
            · simp at h2
            cases e2 with
            | file c2 =>
              simp at h2
              rcases ih fs2 fs3 ops0 l0 h3 q with heq | ⟨hfile, pr0, hpr0, hq0⟩
              · -- not touched by the tail; look at the two head inserts
                rw [← hfs, heq, ← h2]
                by_cases hqs : q = vd ++ [lastName sl]
                · subst hqs
                  exact Or.inr ⟨⟨c2, lookupFS_insert_self _ _ _⟩,
                    (vf, sl), List.mem_cons_self _ _, Or.inr rfl⟩
                · rw [lookupFS_insert_ne _ _ _ _ hqs, ← h1]
                  by_cases hqv : q = vd ++ [lastName vf]
                  · subst hqv
                    exact Or.inr ⟨⟨c1, lookupFS_insert_self _ _ _⟩,
                      (vf, sl), List.mem_cons_self _ _, Or.inl rfl⟩
                  · rw [lookupFS_insert_ne _ _ _ _ hqv]
                    exact Or.inl rfl
              · exact Or.inr ⟨by rw [← hfs]; exact hfile,
                  pr0, List.mem_cons_of_mem _ hpr0, hq0⟩
            | dir => simp at h2
            | symlink u => simp at h2
          | dir => simp at h1
          | symlink u => simp at h1

/-- Every copied pair ends up present (under both basenames) as regular
files in the release directory. -/
theorem copyMediaPairs_present (vd : Path) (root : String) :
    ∀ (prs : List (Path × Path)) (fs fs' : FS) (ops : List FsOp) (lines : List String),
      copyMediaPairs fs vd root prs = some (fs', ops, lines) →
      ∀ pr ∈ prs,
        (∃ c, lookupFS fs' (vd ++ [lastName pr.1]) = some (.file c)) ∧
        (∃ c, lookupFS fs' (vd ++ [lastName pr.2]) = some (.file c)) := by
  intro prs
  induction prs with
  | nil => intro fs fs' ops lines h pr hpr; simp at hpr
  | cons pr0 rest ih =>
    intro fs fs' ops lines h pr hpr
    obtain ⟨vf, sl⟩ := pr0
    unfold copyMediaPairs at h
    cases h1 : cpInto fs vf vd with
    | none => rw [h1] at h; simp at h
    | some fs1 =>
      rw [h1] at h
      dsimp only at h
      cases h2 : cpInto fs1 sl vd with
      | none => rw [h2] at h; simp at h
      | some fs2 =>
        rw [h2] at h
        dsimp only at h
        cases h3 : copyMediaPairs fs2 vd root rest with
        | none => rw [h3] at h; simp at h
        | some trip =>
          rw [h3] at h
          obtain ⟨fs3, ops0, l0⟩ := trip
          dsimp only at h
          simp at h
          obtain ⟨hfs, -, -⟩ := h
          rcases List.mem_cons.mp hpr with hhead | htail
          · -- the head pair: both files are in fs2, and the tail either
            -- leaves them alone or overwrites them with other files
            subst hhead
            unfold cpInto at h1 h2
            rcases hr1 : resolve1 fs vf with - | e1 <;> rw [hr1] at h1
            · simp at h1
            cases e1 with
            | file c1 =>
              simp at h1
              rcases hr2 : resolve1 fs1 sl with - | e2 <;> rw [hr2] at h2
              · simp at h2
              cases e2 with
              | file c2 =>
                simp at h2
                have hsl2 : ∃ c, lookupFS fs2 (vd ++ [lastName sl]) = some (.file c) :=
                  ⟨c2, by rw [← h2]; exact lookupFS_insert_self _ _ _⟩
                have hvf2 : ∃ c, lookupFS fs2 (vd ++ [lastName vf]) = some (.file c) := by
                  by_cases hqe : vd ++ [lastName vf] = vd ++ [lastName sl]
                  · exact ⟨c2, by rw [hqe, ← h2]; exact lookupFS_insert_self _ _ _⟩
                  · refine ⟨c1, ?_⟩
                    rw [← h2, lookupFS_insert_ne _ _ _ _ hqe, ← h1]
                    exact lookupFS_insert_self _ _ _
                constructor
                · rcases copyMediaPairs_lookup vd root rest fs2 fs3 ops0 l0 h3
                      (vd ++ [lastName vf]) with heq | ⟨hfile, -⟩
                  · rw [← hfs, heq]; exact hvf2
                  · rw [← hfs]; exact hfile
                · rcases copyMediaPairs_lookup vd root rest fs2 fs3 ops0 l0 h3
                      (vd ++ [lastName sl]) with heq | ⟨hfile, -⟩
                  · rw [← hfs, heq]; exact hsl2
                  · rw [← hfs]; exact hfile
              | dir => simp at h2
              | symlink u => simp at h2
            | dir => simp at h1
            | symlink u => simp at h1
          · have := ih fs2 fs3 ops0 l0 h3 pr htail
            rw [← hfs]
            exact this

theorem append_singleton_inj (vd : Path) (a b : String)
    (h : vd ++ [a] = vd ++ [b]) : a = b := by
  have h2 := List.append_cancel_left h
  simpa using h2

/-- C2 amended: a successful disk-image copy into a fresh release
directory leaves it containing, besides the directory entry itself,
exactly: one `.htaccess` whose content is the join of exactly one
redirect line per pair, the version-stamped file of every pair, AND a
regular file under every pair's unversioned alias name (`cp` dereferences
the symlink, so alias names exist as plain files, not only as redirect
rules). -/
theorem add_virtiowin_media_spec (fs : FS) (dd bd : Path)
    (pairs : List (Path × Path)) (r : FsResult)
    (hrun : add_virtiowin_media fs dd bd pairs = r) (hok : r.ok = true)
    (hfresh : ∀ n : String, lookupFS fs ((dd ++ bd) ++ [n]) = none)
    (hname : ∀ pr ∈ pairs, lastName pr.1 ≠ ".htaccess" ∧ lastName pr.2 ≠ ".htaccess") :
    lookupFS r.fs ((dd ++ bd) ++ [".htaccess"]) =
      some (.file (String.join (pairs.map (fun pr =>
        make_redirect (HTTP_DIRECT_DIR ++ "/" ++ renderPath bd)
          (lastName pr.2) (lastName pr.1))))) ∧
    (∀ pr ∈ pairs,
        (∃ c, lookupFS r.fs ((dd ++ bd) ++ [lastName pr.1]) = some (.file c)) ∧
        (∃ c, lookupFS r.fs ((dd ++ bd) ++ [lastName pr.2]) = some (.file c))) ∧
    (∀ (n : String) (e : FsEntry), lookupFS r.fs ((dd ++ bd) ++ [n]) = some e →
        n = ".htaccess" ∨ ∃ pr ∈ pairs, n = lastName pr.1 ∨ n = lastName pr.2) := by
  unfold add_virtiowin_media at hrun
  split at hrun
  · rw [← hrun] at hok
    simp at hok
  · cases hl : lookupFS fs (dd ++ bd) with
    | some e0 =>
      rw [hl] at hrun
      dsimp only at hrun
      rw [← hrun] at hok
      simp at hok
    | none =>
      rw [hl] at hrun
      dsimp only at hrun
      cases hcp : copyMediaPairs (insertFS fs (dd ++ bd) FsEntry.dir) (dd ++ bd)
          (HTTP_DIRECT_DIR ++ "/" ++ renderPath bd) pairs with
      | none =>
        rw [hcp] at hrun
        dsimp only at hrun
        rw [← hrun] at hok
        simp at hok
      | some trip =>
        rw [hcp] at hrun
        obtain ⟨fs1, ops, lines⟩ := trip
        dsimp only at hrun
        rw [← hrun]
        have hlines := copyMediaPairs_lines (dd ++ bd)
          (HTTP_DIRECT_DIR ++ "/" ++ renderPath bd) pairs _ _ _ _ hcp
        refine ⟨?_, ?_, ?_⟩
        · rw [show (FsResult.mk (insertFS fs1 ((dd ++ bd) ++ [".htaccess"])
              (.file (String.join lines))) _ _ true).fs =
              insertFS fs1 ((dd ++ bd) ++ [".htaccess"])
                (.file (String.join lines)) from rfl]
          rw [lookupFS_insert_self, hlines]
        · intro pr hpr
          obtain ⟨hn1, hn2⟩ := hname pr hpr
          have hne1 : (dd ++ bd) ++ [lastName pr.1] ≠ (dd ++ bd) ++ [".htaccess"] :=
            fun hEq => hn1 (append_singleton_inj _ _ _ hEq)
          have hne2 : (dd ++ bd) ++ [lastName pr.2] ≠ (dd ++ bd) ++ [".htaccess"] :=
            fun hEq => hn2 (append_singleton_inj _ _ _ hEq)
          have hpres := copyMediaPairs_present (dd ++ bd)
            (HTTP_DIRECT_DIR ++ "/" ++ renderPath bd) pairs _ _ _ _ hcp pr hpr
          constructor
          · obtain ⟨c, hc⟩ := hpres.1
            exact ⟨c, by rw [lookupFS_insert_ne _ _ _ _ hne1]; exact hc⟩
          · obtain ⟨c, hc⟩ := hpres.2
            exact ⟨c, by rw [lookupFS_insert_ne _ _ _ _ hne2]; exact hc⟩
        · intro n e hn
          by_cases hht : n = ".htaccess"
          · exact Or.inl hht
          · have hne : (dd ++ bd) ++ [n] ≠ (dd ++ bd) ++ [".htaccess"] :=
              fun hEq => hht (append_singleton_inj _ _ _ hEq)
            rw [show (FsResult.mk (insertFS fs1 ((dd ++ bd) ++ [".htaccess"])
                (.file (String.join lines))) _ _ true).fs =
                insertFS fs1 ((dd ++ bd) ++ [".htaccess"])
                  (.file (String.join lines)) from rfl] at hn
            rw [lookupFS_insert_ne _ _ _ _ hne] at hn
            rcases copyMediaPairs_lookup (dd ++ bd)
                (HTTP_DIRECT_DIR ++ "/" ++ renderPath bd) pairs _ _ _ _ hcp
                ((dd ++ bd) ++ [n]) with heq | ⟨-, pr, hpr, hq⟩
            · rw [heq] at hn
              have hdne : (dd ++ bd) ++ [n] ≠ dd ++ bd := by simp
              rw [lookupFS_insert_ne _ _ _ _ hdne, hfresh n] at hn
              exact absurd hn (by simp)
            · refine Or.inr ⟨pr, hpr, ?_⟩
              rcases hq with hq | hq
              · exact Or.inl (append_singleton_inj _ _ _ hq)
              · exact Or.inr (append_singleton_inj _ _ _ hq)

/-- Witness for C2 amended at the concrete one-pair input of the
counterexample. -/
theorem add_virtiowin_media_spec_witness :
    lookupFS (add_virtiowin_media
      [(["direct"], .dir), (["src"], .dir),
       (["src", "virtio-win-0.1.1.iso"], .file "ISO"),
       (["src", "virtio-win.iso"], .symlink ["virtio-win-0.1.1.iso"])]
      ["direct"] ["archive-virtio", "virtio-win-0.1.1"]
      [(["src", "virtio-win-0.1.1.iso"], ["src", "virtio-win.iso"])]).fs
      ((["direct"] ++ ["archive-virtio", "virtio-win-0.1.1"]) ++ [".htaccess"]) =
      some (.file (String.join
        ([(["src", "virtio-win-0.1.1.iso"], ["src", "virtio-win.iso"])].map
          (fun pr : Path × Path =>
            make_redirect
              (HTTP_DIRECT_DIR ++ "/" ++ renderPath ["archive-virtio", "virtio-win-0.1.1"])
              (lastName pr.2) (lastName pr.1))))) :=
  (add_virtiowin_media_spec
    [(["direct"], .dir), (["src"], .dir),
     (["src", "virtio-win-0.1.1.iso"], .file "ISO"),
     (["src", "virtio-win.iso"], .symlink ["virtio-win-0.1.1.iso"])]
    ["direct"] ["archive-virtio", "virtio-win-0.1.1"]
    [(["src", "virtio-win-0.1.1.iso"], ["src", "virtio-win.iso"])] _
    rfl (by decide) (fun n => rfl) (by decide)).1

/-- The qemu-ga copy loop changes the filesystem only by installing
regular files named after the copied basenames in the target directory. -/
theorem copyAll_lookup (vd : Path) :
    ∀ (ps : List Path) (fs fs' : FS) (ops : List FsOp),
      copyAll fs vd ps = some (fs', ops) →
      ∀ q : Path, lookupFS fs' q = lookupFS fs q ∨
        ((∃ c, lookupFS fs' q = some (.file c)) ∧
         ∃ p ∈ ps, q = vd ++ [lastName p]) := by
  intro ps
  induction ps with
  | nil =>
    intro fs fs' ops h q
    simp [copyAll] at h
    rw [← h.1]
    exact Or.inl rfl
  | cons p rest ih =>
    intro fs fs' ops h q
    unfold copyAll at h
    cases h1 : cpInto fs p vd with
    | none => rw [h1] at h; simp at h
    | some fs1 =>
      rw [h1] at h
      dsimp only at h
      cases h2 : copyAll fs1 vd rest with
      | none => rw [h2] at h; simp at h
      | some duo =>
        rw [h2] at h
        obtain ⟨fs2, ops0⟩ := duo
        dsimp only at h
        simp at h
        obtain ⟨hfs, -⟩ := h
        unfold cpInto at h1
        rcases hr1 : resolve1 fs p with - | e1 <;> rw [hr1] at h1
        · simp at h1
        cases e1 with
        | file c1 =>
          simp at h1
          rcases ih fs1 fs2 ops0 h2 q with heq | ⟨hfile, p0, hp0, hq0⟩
          · rw [← hfs, heq, ← h1]
            by_cases hqp : q = vd ++ [lastName p]
            · subst hqp
              exact Or.inr ⟨⟨c1, lookupFS_insert_self _ _ _⟩,
                p, List.mem_cons_self _ _, rfl⟩
            · rw [lookupFS_insert_ne _ _ _ _ hqp]
              exact Or.inl rfl
          · exact Or.inr ⟨by rw [← hfs]; exact hfile,
              p0, List.mem_cons_of_mem _ hp0, hq0⟩
        | dir => simp at h1
        | symlink u => simp at h1

/-- Every file given to the qemu-ga copy loop is present afterwards. -/
theorem copyAll_present (vd : Path) :
    ∀ (ps : List Path) (fs fs' : FS) (ops : List FsOp),
      copyAll fs vd ps = some (fs', ops) →
      ∀ p ∈ ps, ∃ c, lookupFS fs' (vd ++ [lastName p]) = some (.file c) := by
  intro ps
  induction ps with
  | nil => intro fs fs' ops h p hp; simp at hp
  | cons p0 rest ih =>
    intro fs fs' ops h p hp
    unfold copyAll at h
    cases h1 : cpInto fs p0 vd with
    | none => rw [h1] at h; simp at h
    | some fs1 =>
      rw [h1] at h
      dsimp only at h
      cases h2 : copyAll fs1 vd rest with
      | none => rw [h2] at h; simp at h
      | some duo =>
        rw [h2] at h
        obtain ⟨fs2, ops0⟩ := duo
        dsimp only at h
        simp at h
        obtain ⟨hfs, -⟩ := h
        rcases List.mem_cons.mp hp with hhead | htail
        · subst hhead
          unfold cpInto at h1
          rcases hr1 : resolve1 fs p with - | e1 <;> rw [hr1] at h1
          · simp at h1
          cases e1 with
          | file c1 =>
            simp at h1
            have hin1 : ∃ c, lookupFS fs1 (vd ++ [lastName p]) = some (.file c) :=
              ⟨c1, by rw [← h1]; exact lookupFS_insert_self _ _ _⟩
            rcases copyAll_lookup vd rest fs1 fs2 ops0 h2 (vd ++ [lastName p]) with
              heq | ⟨hfile, -⟩
            · rw [← hfs, heq]; exact hin1
            · rw [← hfs]; exact hfile
          | dir => simp at h1
          | symlink u => simp at h1
        · have := ih fs1 fs2 ops0 h2 p htail
          rw [← hfs]
          exact this

/-- C8: if the companion-installer (qemu-ga) directory already exists,
`add_qemuga` is a successful no-op that emits the skip notice and
performs zero mutating operations; otherwise a successful run creates the
directory and copies every given file into it. -/
theorem add_qemuga_spec (fs : FS) (dd qb : Path) (paths : List Path) :
    (pathExists fs (dd ++ qb) = true →
      add_qemuga fs dd qb paths =
        ⟨fs, [],
         ["qemuga has already been uploaded, skipping: " ++ lastName (dd ++ qb)],
         true⟩) ∧
    (pathExists fs (dd ++ qb) = false →
      (add_qemuga fs dd qb paths).ok = true →
      lookupFS (add_qemuga fs dd qb paths).fs (dd ++ qb) = some .dir ∧
      ∀ p ∈ paths, ∃ c,
        lookupFS (add_qemuga fs dd qb paths).fs ((dd ++ qb) ++ [lastName p]) =
          some (.file c)) := by
  constructor
  · intro h
    unfold add_qemuga
    rw [if_pos h]
  · intro hne hok
    unfold add_qemuga at hok ⊢
    rw [if_neg (by simp [hne])] at hok ⊢
    cases hl : lookupFS fs (dd ++ qb) with
    | some e0 =>
      rw [hl] at hok
      simp at hok
    | none =>
      rw [hl] at hok
      dsimp only at hok ⊢
      cases hca : copyAll (insertFS fs (dd ++ qb) FsEntry.dir) (dd ++ qb) paths with
      | none =>
        rw [hca] at hok
        simp at hok
      | some duo =>
        rw [hca] at hok
        obtain ⟨fs1, ops⟩ := duo
        dsimp only at hok ⊢
        constructor
        · rcases copyAll_lookup (dd ++ qb) paths _ fs1 ops hca (dd ++ qb) with
            heq | ⟨-, p0, -, hq0⟩
          · rw [heq]
            exact lookupFS_insert_self _ _ _
          · exact absurd hq0.symm (by simp)
        · intro p hp
          exact copyAll_present (dd ++ qb) paths _ fs1 ops hca p hp

/-- Witness for C8: the no-op branch at a concrete existing directory,
and the copying branch at a concrete fresh one. -/
theorem add_qemuga_spec_witness :
    (add_qemuga [(["direct"], .dir), (["direct", "qemu-ga-1"], .dir)]
        ["direct"] ["qemu-ga-1"] [] =
      ⟨[(["direct"], .dir), (["direct", "qemu-ga-1"], .dir)], [],
       ["qemuga has already been uploaded, skipping: " ++
        lastName (["direct"] ++ ["qemu-ga-1"])], true⟩) ∧
    (∃ c, lookupFS (add_qemuga
        [(["direct"], .dir), (["m"], .dir), (["m", "a.msi"], .file "A")]
        ["direct"] ["qemu-ga-2"] [["m", "a.msi"]]).fs
        ((["direct"] ++ ["qemu-ga-2"]) ++ [lastName ["m", "a.msi"]]) =
        some (.file c)) :=
  ⟨(add_qemuga_spec [(["direct"], .dir), (["direct", "qemu-ga-1"], .dir)]
      ["direct"] ["qemu-ga-1"] []).1 (by decide),
   ((add_qemuga_spec [(["direct"], .dir), (["m"], .dir), (["m", "a.msi"], .file "A")]
      ["direct"] ["qemu-ga-2"] [["m", "a.msi"]]).2 (by decide) (by decide)).2
      ["m", "a.msi"] (by decide)⟩

theorem append_pair_inj (vd : Path) (x a b : String)
    (h : vd ++ [x, a] = vd ++ [x, b]) : a = b := by
  have h2 := List.append_cancel_left h
  simpa using h2

theorem linkLoop_frame (rd : Path) :
    ∀ (ns : List String) (fs : FS) (r : FsResult), linkLoop fs rd ns = r →
      ∀ q : Path, (∀ n ∈ ns, q ≠ rd ++ ["latest", n]) →
        lookupFS r.fs q = lookupFS fs q := by
  intro ns
  induction ns with
  | nil =>
    intro fs r h q hq
    rw [← h]
    rfl
  | cons n rest ih =>
    intro fs r h q hq
    simp only [linkLoop] at h
    cases hro : (add_relative_link fs rd ["rpms", n] ["latest", n]).ok with
    | false =>
      rw [hro] at h
      simp only [Bool.false_eq_true, if_false] at h
      rw [← h]
      exact add_relative_link_frame fs rd ["rpms", n] ["latest", n]
        (add_relative_link fs rd ["rpms", n] ["latest", n]) q rfl
        (hq n (List.mem_cons_self n rest))
    | true =>
      rw [hro] at h
      simp only [if_true] at h
      rw [← h]
      have h2 := ih (add_relative_link fs rd ["rpms", n] ["latest", n]).fs
        (linkLoop (add_relative_link fs rd ["rpms", n] ["latest", n]).fs rd rest)
        rfl q (fun m hm => hq m (List.mem_cons_of_mem n hm))
      rw [show (FsResult.mk
          (linkLoop (add_relative_link fs rd ["rpms", n] ["latest", n]).fs rd rest).fs
          _ _ (linkLoop (add_relative_link fs rd ["rpms", n] ["latest", n]).fs rd rest).ok).fs =
          (linkLoop (add_relative_link fs rd ["rpms", n] ["latest", n]).fs rd rest).fs
          from rfl]
      rw [h2]
      exact add_relative_link_frame fs rd ["rpms", n] ["latest", n]
        (add_relative_link fs rd ["rpms", n] ["latest", n]) q rfl
        (hq n (List.mem_cons_self n rest))

theorem linkLoop_ok_links (rd : Path) :
    ∀ (ns : List String) (fs : FS) (r : FsResult), ns.Nodup →
      linkLoop fs rd ns = r → r.ok = true →
      ∀ n ∈ ns, lookupFS r.fs (rd ++ ["latest", n]) =
        some (.symlink (relpath ["rpms", n] (dirname ["latest", n]))) := by
  intro ns
  induction ns with
  | nil =>
    intro fs r hnd h hok n hn
    simp at hn
  | cons n0 rest ih =>
    intro fs r hnd h hok n hn
    simp only [linkLoop] at h
    cases hro : (add_relative_link fs rd ["rpms", n0] ["latest", n0]).ok with
    | false =>
      rw [hro] at h
      simp only [Bool.false_eq_true, if_false] at h
      rw [← h] at hok
      simp at hok
    | true =>
      rw [hro] at h
      simp only [if_true] at h
      rw [← h] at hok ⊢
      rcases List.mem_cons.mp hn with hh | ht
      · subst hh
        have hlook := add_relative_link_ok_lookup fs rd ["rpms", n] ["latest", n]
          (add_relative_link fs rd ["rpms", n] ["latest", n]) rfl hro
        have hfr := linkLoop_frame rd rest
          (add_relative_link fs rd ["rpms", n] ["latest", n]).fs
          (linkLoop (add_relative_link fs rd ["rpms", n] ["latest", n]).fs rd rest)
          rfl (rd ++ ["latest", n])
          (fun m hm hqe => ((List.nodup_cons.mp hnd).1)
            (by rw [append_pair_inj rd "latest" n m hqe]; exact hm))
        rw [show (FsResult.mk
            (linkLoop (add_relative_link fs rd ["rpms", n] ["latest", n]).fs rd rest).fs
            _ _ (linkLoop (add_relative_link fs rd ["rpms", n] ["latest", n]).fs rd rest).ok).fs =
            (linkLoop (add_relative_link fs rd ["rpms", n] ["latest", n]).fs rd rest).fs
            from rfl]
        rw [hfr]
        exact hlook
      · have hok2 : (linkLoop (add_relative_link fs rd ["rpms", n0] ["latest", n0]).fs
            rd rest).ok = true := hok
        exact ih (add_relative_link fs rd ["rpms", n0] ["latest", n0]).fs
          (linkLoop (add_relative_link fs rd ["rpms", n0] ["latest", n0]).fs rd rest)
          (List.nodup_cons.mp hnd).2 rfl hok2 n ht

/-- C9 counterexample: a file in the pool that does not match `*.rpm`
gets NO `latest/` alias -- the loop globs `rpms/*.rpm`, not every pool
file -- yet the run succeeds. -/
theorem generate_latest_links_counterexample :
    generate_latest_links
      [(["repo"], .dir), (["repo", "rpms"], .dir),
       (["repo", "rpms", "stray.txt"], .file "x")] ["repo"] =
      ⟨[(["repo"], .dir), (["repo", "rpms"], .dir),
        (["repo", "rpms", "stray.txt"], .file "x")], [], [], true⟩ ∧
    lookupFS [(["repo"], .dir), (["repo", "rpms"], .dir),
      (["repo", "rpms", "stray.txt"], .file "x")]
      ["repo", "latest", "stray.txt"] = none := by
  constructor
  · decide
  · decide

/-- C9 amended: after a successful latest-alias pass, every `*.rpm` file
currently in the whole `rpms/` pool -- not only files of the release being
published -- has a `latest/<filename>` symlink pointing back into the pool
(target `../rpms/<filename>`). -/
theorem generate_latest_links_spec (fs : FS) (rd : Path) (r : FsResult)
    (hr : generate_latest_links fs rd = r) (hok : r.ok = true) :
    ∀ n ∈ rpmPoolNames fs rd,
      lookupFS r.fs (rd ++ ["latest", n]) = some (.symlink ["..", "rpms", n]) := by
  intro n hn
  have h := linkLoop_ok_links rd (rpmPoolNames fs rd) fs r
    (List.nodup_dedup _) hr hok n hn
  exact h

/-- Witness for C9 amended on a concrete pool with one RPM. -/
theorem generate_latest_links_spec_witness :
    lookupFS (generate_latest_links
      [(["repo"], .dir), (["repo", "rpms"], .dir),
       (["repo", "rpms", "virtio-win-0.1.1-1.noarch.rpm"], .file "R")] ["repo"]).fs
      (["repo"] ++ ["latest", "virtio-win-0.1.1-1.noarch.rpm"]) =
      some (.symlink ["..", "rpms", "virtio-win-0.1.1-1.noarch.rpm"]) :=
  generate_latest_links_spec
    [(["repo"], .dir), (["repo", "rpms"], .dir),
     (["repo", "rpms", "virtio-win-0.1.1-1.noarch.rpm"], .file "R")] ["repo"] _
    rfl (by decide) "virtio-win-0.1.1-1.noarch.rpm" (by decide)

/-- Witness for C1 amended at a concrete empty buildroot. -/
theorem findExtractDir_head_witness :
    findExtractDir [(["br"], .dir)] ["br"] =
      (globExtract [(["br"], .dir)] ["br"]).head? :=
  (findExtractDir_head [(["br"], .dir)] ["br"]).1

/-- Witness for C7 at concrete arguments. -/
theorem push_repos_confirmation_gate_witness :
    (push_repos false false "local" "remote").2 = some 1 :=
  (push_repos_confirmation_gate false "local" "remote").1

end MakeRepo

